import Mathlib

/-!
Shallow embedding of the `wordle_finder` application core (`src/app.rs`).

Words are modelled as lists of characters.  The `iced` text-editor
`Content` is modelled as a text buffer together with a cursor; the
editor actions that can reach the application's `update` function are
the edit actions (`Insert`, `Paste`, `Enter`, `Backspace`, `Delete`)
and the remaining cursor-only actions (`Move`, `Select`, `Click`, ...),
which never change the buffer text and are collapsed into a single
`move` action carrying the new cursor position.

`Char.toLower`, `Char.toUpper` and `Char.isAlpha` act on the ASCII
range only, matching `to_ascii_lowercase` / `to_ascii_uppercase`;
`char::is_alphabetic` is modelled on the ASCII alphabet.
-/

namespace WordleFinder

abbrev Word := List Char

/-- Model of `iced::widget::text_editor::Content`: the buffer text plus a
cursor offset into it. -/
structure Content where
  text : List Char
  cursor : Nat
deriving DecidableEq

/-- Model of `Content::new()`: an empty buffer. -/
def Content.new : Content := ⟨[], 0⟩

/-- Model of `iced::widget::text_editor::Edit`. -/
inductive Edit where
  | insert (c : Char)
  | paste (s : List Char)
  | enter
  | backspace
  | delete
deriving DecidableEq

/-- Model of `iced::widget::text_editor::Action`: an edit, or any of the
cursor-only actions (`Move`, `Select`, `Click`, `Drag`, `Scroll`, ...),
which change the cursor but never the text. -/
inductive Action where
  | edit (e : Edit)
  | move (cursor : Nat)
deriving DecidableEq

/-- Insert the characters `s` at offset `p` of `t`. -/
def insertAt (t : List Char) (p : Nat) (s : List Char) : List Char :=
  t.take p ++ s ++ t.drop p

/-- Model of `Content::perform`.  The cursor is clamped to the buffer
length before use. -/
def Content.perform (ct : Content) (a : Action) : Content :=
  match a with
  | .edit (.insert c) =>
      ⟨insertAt ct.text (min ct.cursor ct.text.length) [c],
       min ct.cursor ct.text.length + 1⟩
  | .edit (.paste s) =>
      ⟨insertAt ct.text (min ct.cursor ct.text.length) s,
       min ct.cursor ct.text.length + s.length⟩
  | .edit .enter =>
      ⟨insertAt ct.text (min ct.cursor ct.text.length) ['\n'],
       min ct.cursor ct.text.length + 1⟩
  | .edit .backspace =>
      ⟨ct.text.take (min ct.cursor ct.text.length - 1)
         ++ ct.text.drop (min ct.cursor ct.text.length),
       min ct.cursor ct.text.length - 1⟩
  | .edit .delete =>
      ⟨ct.text.take (min ct.cursor ct.text.length)
         ++ ct.text.drop (min ct.cursor ct.text.length + 1),
       min ct.cursor ct.text.length⟩
  | .move n => ⟨ct.text, n⟩

/-- Model of the `Message` enum of `src/app.rs`. -/
inductive Message where
  | positionEditAction (idx : Nat) (action : Action)
  | includingEditAction (action : Action)
  | excludingEditAction (action : Action)
  | toggleCommonWords
deriving DecidableEq

/-- Model of the `App` struct of `src/app.rs`.  The `HashSet` of common
words (used only for badge styling in `view`) is kept as a list. -/
structure App where
  words : List Word
  filtered_words : List Word
  sorted_common_words : List Word
  common_words : List Word
  position_content : Fin 5 → Content
  including_content : Content
  excluding_content : Content
  only_show_common : Bool

/-- The state `App::new` produces once the two word lists have been
extracted: empty constraint boxes, `only_show_common = false`, and
`filtered_words` initialised to a copy of `words`. -/
def App.init (ws scs cw : List Word) : App where
  words := ws
  filtered_words := ws
  sorted_common_words := scs
  common_words := cw
  position_content := fun _ => Content.new
  including_content := Content.new
  excluding_content := Content.new
  only_show_common := false

/-- Model of the word-extraction loop of `App::new` (lines 54-64 and
76-88 of `src/app.rs`): walk the lines, starting at 0-based index `i`;
the first line whose length is not exactly 5 aborts the extraction with
the 1-based line number and the offending line. -/
def extractWordsFrom : Nat → List (List Char) → Except (Nat × List Char) (List (List Char))
  | _, [] => .ok []
  | i, w :: rest =>
      if w.length ≠ 5 then .error (i + 1, w)
      else
        match extractWordsFrom (i + 1) rest with
        | .error e => .error e
        | .ok ws => .ok (w :: ws)

/-- Extraction of one word-list file, starting at line index 0. -/
def extractWords (lines : List (List Char)) : Except (Nat × List Char) (List (List Char)) :=
  extractWordsFrom 0 lines

/-- Model of `App::new`, parameterised by the two files' lines (the file
system reads are outside the model).  The common-word `HashSet` and the
`sorted_common_words` vector receive the same words. -/
def App.new (allLines commonLines : List (List Char)) : Except (Nat × List Char) App :=
  match extractWords allLines with
  | .error e => .error e
  | .ok ws =>
      match extractWords commonLines with
      | .error e => .error e
      | .ok cs => .ok (App.init ws cs cs)

/-- The first character of a content's text, lowered: models
`content.text().chars().next().map(|c| c.to_ascii_lowercase())`. -/
def lowerHead (ct : Content) : Option Char :=
  ct.text.head?.map Char.toLower

/-- The five per-position constraints, in slot order. -/
def positionSlots (a : App) : List (Option Char) :=
  [lowerHead (a.position_content 0), lowerHead (a.position_content 1),
   lowerHead (a.position_content 2), lowerHead (a.position_content 3),
   lowerHead (a.position_content 4)]

/-- The position-filter loop of `update_filtered_words` (lines 289-306):
for the slot at index `i`, a filled slot retains the words whose
character at index `i` equals the (lowered) slot character; an empty
slot leaves the list unchanged. -/
def filterByPositionFrom : Nat → List (Option Char) → List Word → List Word
  | _, [], ws => ws
  | i, oc :: rest, ws =>
      filterByPositionFrom (i + 1) rest
        (match oc with
         | some c => ws.filter (fun w => w.get? i == some c)
         | none => ws)

/-- The exclusion-filter loop of `update_filtered_words` (lines 308-316):
for every (lowered) character of the exclusion text, retain the words
not containing it. -/
def filterByExclusion (excl : List Char) (ws : List Word) : List Word :=
  excl.foldl (fun acc c => acc.filter (fun w => !(w.contains c))) ws

/-- The per-character frequency map built from the (lowered) inclusion
text (lines 320-331): one entry per distinct character, mapped to its
number of occurrences.  The Rust `HashMap` iterates in an unspecified
order; this canonical list stands for its entries, and order
independence is proved separately. -/
def charFrequency (chars : List Char) : List (Char × Nat) :=
  chars.dedup.map (fun c => (c, chars.count c))

/-- The inclusion-filter loop of `update_filtered_words` (lines 333-336):
for every `(character, frequency)` requirement, retain the words
containing at least `frequency` occurrences of `character`. -/
def filterByInclusion (reqs : List (Char × Nat)) (ws : List Word) : List Word :=
  reqs.foldl (fun acc p => acc.filter (fun w => decide (p.2 ≤ w.count p.1))) ws

/-- The base word list chosen at the top of `update_filtered_words`
(lines 283-287). -/
def App.base_words (a : App) : List Word :=
  if a.only_show_common then a.sorted_common_words else a.words

/-- Parameterised form of `update_filtered_words`: the list of inclusion
requirements actually iterated is passed in (the Rust `HashMap` yields
them in an unspecified order). -/
def App.update_filtered_with (a : App) (reqs : List (Char × Nat)) : List Word :=
  filterByInclusion reqs
    (filterByExclusion (a.excluding_content.text.map Char.toLower)
      (filterByPositionFrom 0 (positionSlots a) a.base_words))

/-- Model of `App::update_filtered_words` (lines 282-337), with the
inclusion requirements taken from the frequency map of the lowered
inclusion text. -/
def App.update_filtered_words (a : App) : List Word :=
  a.update_filtered_with
    (charFrequency (a.including_content.text.map Char.toLower))

/-- Store a freshly recomputed `filtered_words` (the
`self.update_filtered_words()` call at line 279). -/
def App.recompute (a : App) : App :=
  { a with filtered_words := a.update_filtered_words }

/-- The `Message::PositionEditAction` branch of `App::update`
(lines 221-245), for an in-range index: an alphabetic insert replaces
the slot's content by a fresh one holding the uppercased character,
`Backspace`/`Delete` clear the slot, the remaining edits are ignored,
and non-edit actions are performed on the slot's content. -/
def App.positionUpdated (a : App) (idx : Fin 5) (action : Action) : App :=
  match action with
  | .edit (.insert c) =>
      if c.isAlpha then
        let ct := Content.new.perform (.edit (.insert c.toUpper))
        { a with position_content := Function.update a.position_content idx ct }
      else a
  | .edit .backspace =>
      { a with position_content := Function.update a.position_content idx Content.new }
  | .edit .delete =>
      { a with position_content := Function.update a.position_content idx Content.new }
  | .edit (.paste _) => a
  | .edit .enter => a
  | .move n =>
      let ct := (a.position_content idx).perform (.move n)
      { a with position_content := Function.update a.position_content idx ct }

/-- The `Message::IncludingEditAction` branch of `App::update`
(lines 246-258): an insert is accepted only if the character is
alphabetic and the text is shorter than 5 characters, and is then
performed uppercased; every other action is performed unchanged. -/
def App.includingUpdated (a : App) (action : Action) : App :=
  match action with
  | .edit (.insert c) =>
      if c.isAlpha ∧ a.including_content.text.length < 5 then
        { a with including_content := a.including_content.perform (.edit (.insert c.toUpper)) }
      else a
  | _ => { a with including_content := a.including_content.perform action }

/-- Model of `App::update` (lines 219-280).  Every branch ends by
recomputing `filtered_words`, with two exceptions taken from the
source: a `PositionEditAction` whose index is not below 5 returns
immediately, and an `ExcludingEditAction` inserting a non-alphabetic
character returns immediately. -/
def App.update (a : App) (m : Message) : App :=
  match m with
  | .positionEditAction idx action =>
      if h : idx < 5 then (a.positionUpdated ⟨idx, h⟩ action).recompute else a
  | .includingEditAction action => (a.includingUpdated action).recompute
  | .excludingEditAction action =>
      match action with
      | .edit (.insert c) =>
          if c.isAlpha then
            (if a.excluding_content.text.contains c.toUpper then a
             else { a with excluding_content := a.excluding_content.perform (.edit (.insert c.toUpper)) }).recompute
          else a
      | _ => { a with excluding_content := a.excluding_content.perform action }.recompute
  | .toggleCommonWords => { a with only_show_common := !a.only_show_common }.recompute

/-- Process a sequence of messages. -/
def App.run (a : App) (ms : List Message) : App :=
  ms.foldl App.update a

/-- Whether a message is a paste edit on the exclusion box. -/
def Message.isExcludingPaste : Message → Bool
  | .excludingEditAction (.edit (.paste _)) => true
  | _ => false

/-- Whether a message is a paste edit on the inclusion box. -/
def Message.isIncludingPaste : Message → Bool
  | .includingEditAction (.edit (.paste _)) => true
  | _ => false

/-! ### Generic facts about chained `filter`s -/

theorem foldl_filter_eq {α β : Type} (f : β → α → Bool) :
    ∀ (xs : List β) (l : List α),
      xs.foldl (fun acc b => acc.filter (f b)) l
        = l.filter (fun a => xs.all (fun b => f b a)) := by
  intro xs
  induction xs with
  | nil => intro l; simp
  | cons x xs ih =>
      intro l
      simp only [List.foldl_cons, ih, List.filter_filter, List.all_cons]
      exact List.filter_congr (fun a _ => by rw [Bool.and_comm])

theorem perm_all_eq {α : Type} {l₁ l₂ : List α} (h : l₁.Perm l₂) (f : α → Bool) :
    l₁.all f = l₂.all f := by
  induction h with
  | nil => rfl
  | cons x _ ih => simp only [List.all_cons, ih]
  | swap x y l =>
      simp only [List.all_cons, ← Bool.and_assoc]
      rw [Bool.and_comm (f x) (f y)]
  | trans _ _ ih₁ ih₂ => exact ih₁.trans ih₂

/-! ### Characterisation of the three filter stages -/

/-- The conjunction of the position constraints from index `i` on. -/
def posPredFrom (i : Nat) : List (Option Char) → Word → Bool
  | [], _ => true
  | oc :: rest, w =>
      (match oc with
       | some c => w.get? i == some c
       | none => true) && posPredFrom (i + 1) rest w

theorem filterByPositionFrom_eq (slots : List (Option Char)) :
    ∀ (i : Nat) (ws : List Word),
      filterByPositionFrom i slots ws = ws.filter (fun w => posPredFrom i slots w) := by
  induction slots with
  | nil =>
      intro i ws
      simp [filterByPositionFrom, posPredFrom]
  | cons oc rest ih =>
      intro i ws
      cases oc with
      | some c =>
          simp only [filterByPositionFrom, ih, List.filter_filter, posPredFrom]
          exact List.filter_congr (fun w _ => by rw [Bool.and_comm])
      | none =>
          simp only [filterByPositionFrom, ih, posPredFrom]
          exact (List.filter_congr (fun w _ => by simp)).symm

theorem filterByExclusion_eq (excl : List Char) (ws : List Word) :
    filterByExclusion excl ws
      = ws.filter (fun w => excl.all (fun c => !(w.contains c))) :=
  foldl_filter_eq _ excl ws

theorem filterByInclusion_eq (reqs : List (Char × Nat)) (ws : List Word) :
    filterByInclusion reqs ws
      = ws.filter (fun w => reqs.all (fun p => decide (p.2 ≤ w.count p.1))) :=
  foldl_filter_eq _ reqs ws

theorem update_filtered_with_eq (a : App) (reqs : List (Char × Nat)) :
    a.update_filtered_with reqs
      = ((a.base_words.filter (fun w => posPredFrom 0 (positionSlots a) w)).filter
          (fun w => (a.excluding_content.text.map Char.toLower).all (fun c => !(w.contains c)))).filter
          (fun w => reqs.all (fun p => decide (p.2 ≤ w.count p.1))) := by
  unfold App.update_filtered_with
  rw [filterByInclusion_eq, filterByExclusion_eq, filterByPositionFrom_eq]

theorem mem_update_filtered_with (a : App) (reqs : List (Char × Nat)) (w : Word) :
    w ∈ a.update_filtered_with reqs
      ↔ w ∈ a.base_words
        ∧ posPredFrom 0 (positionSlots a) w = true
        ∧ (a.excluding_content.text.map Char.toLower).all (fun c => !(w.contains c)) = true
        ∧ reqs.all (fun p => decide (p.2 ≤ w.count p.1)) = true := by
  rw [update_filtered_with_eq]
  simp only [List.mem_filter]
  tauto

theorem mem_update_filtered_words (a : App) (w : Word) :
    w ∈ a.update_filtered_words
      ↔ w ∈ a.base_words
        ∧ posPredFrom 0 (positionSlots a) w = true
        ∧ (a.excluding_content.text.map Char.toLower).all (fun c => !(w.contains c)) = true
        ∧ (charFrequency (a.including_content.text.map Char.toLower)).all
            (fun p => decide (p.2 ≤ w.count p.1)) = true :=
  mem_update_filtered_with a _ w

/-! ### Claim C4: the filtered result is a stable subsequence of the base set -/

/-- C4: for every filter state, the filtered result computed by
`update_filtered_words` is an ordered subsequence of the chosen base
set (`sorted_common_words` when `only_show_common` is set, else
`words`): filtering only removes entries, preserving relative order,
and never reorders, duplicates or adds words. -/
theorem filtered_words_sublist_base (a : App) :
    (a.update_filtered_words).Sublist a.base_words := by
  rw [App.update_filtered_words, update_filtered_with_eq]
  exact ((List.filter_sublist _).trans (List.filter_sublist _)).trans (List.filter_sublist _)

/-! ### Claim C5: the filter is a pure function, independent of the
requirement iteration order -/

/-- C5: recomputing the filtered result from the same state and corpus
is deterministic: the result is a pure function of the state, and in
particular running the inclusion requirements in any order (the Rust
`HashMap` iterates its entries in an unspecified order) yields the same
list as the canonical `charFrequency` order. -/
theorem update_filtered_order_irrelevant (a : App) (reqs : List (Char × Nat))
    (h : reqs.Perm (charFrequency (a.including_content.text.map Char.toLower))) :
    a.update_filtered_with reqs = a.update_filtered_words := by
  rw [App.update_filtered_words, update_filtered_with_eq, update_filtered_with_eq]
  exact List.filter_congr (fun w _ => perm_all_eq h _)

/-! ### Position-slot helper lemmas -/

theorem posPredFrom_spec (w : Word) :
    ∀ (slots : List (Option Char)) (i k : Nat) (c : Char),
      posPredFrom i slots w = true → slots.get? k = some (some c) →
        w.get? (i + k) = some c := by
  intro slots
  induction slots with
  | nil => intro i k c _ hk; simp at hk
  | cons oc rest ih =>
      intro i k c hp hk
      simp only [posPredFrom, Bool.and_eq_true] at hp
      cases k with
      | zero =>
          simp only [List.get?_cons_zero, Option.some.injEq] at hk
          subst hk
          simpa using beq_iff_eq.mp hp.1
      | succ k =>
          rw [List.get?_cons_succ] at hk
          have := ih (i + 1) k c hp.2 hk
          rwa [Nat.add_assoc, Nat.add_comm 1 k] at this

theorem posPredFrom_of (w : Word) :
    ∀ (slots : List (Option Char)) (i : Nat),
      (∀ k c, slots.get? k = some (some c) → w.get? (i + k) = some c) →
        posPredFrom i slots w = true := by
  intro slots
  induction slots with
  | nil => intro i _; rfl
  | cons oc rest ih =>
      intro i h
      simp only [posPredFrom, Bool.and_eq_true]
      constructor
      · cases oc with
        | none => rfl
        | some c =>
            have := h 0 c rfl
            simp only [Nat.add_zero] at this
            simpa using this
      · exact ih (i + 1) (fun k c hk => by
          have := h (k + 1) c (by rwa [List.get?_cons_succ])
          have heq : i + 1 + k = i + (k + 1) := by omega
          rw [heq]
          exact this)

theorem positionSlots_get (a : App) (i : Fin 5) :
    (positionSlots a).get? i.val = some (lowerHead (a.position_content i)) := by
  fin_cases i <;> rfl

theorem positionSlots_get_none (a : App) (k : Nat) (hk : 5 ≤ k) :
    (positionSlots a).get? k = none := by
  rw [List.get?_eq_none]
  simpa [positionSlots] using hk

theorem posPred_of_mem_filtered (a : App) (w : Word) (hw : w ∈ a.update_filtered_words)
    (i : Fin 5) (ch : Char) (hch : (a.position_content i).text.head? = some ch) :
    w.get? i.val = some ch.toLower := by
  have hpos := ((mem_update_filtered_words a w).mp hw).2.1
  have hslot : (positionSlots a).get? i.val = some (some ch.toLower) := by
    rw [positionSlots_get, lowerHead, hch]
    rfl
  have := posPredFrom_spec w (positionSlots a) 0 i.val ch.toLower hpos hslot
  simpa using this

theorem posPred_of_slots (a : App) (w : Word)
    (h : ∀ (i : Fin 5) (ch : Char),
      (a.position_content i).text.head? = some ch → w.get? i.val = some ch.toLower) :
    posPredFrom 0 (positionSlots a) w = true := by
  apply posPredFrom_of
  intro k c hk
  by_cases h5 : k < 5
  · rw [positionSlots_get a ⟨k, h5⟩] at hk
    simp only [Option.some.injEq] at hk
    rw [lowerHead] at hk
    rcases Option.map_eq_some'.mp hk with ⟨ch, hch, rfl⟩
    simpa using h ⟨k, h5⟩ ch hch
  · rw [positionSlots_get_none a k (by omega)] at hk
    cases hk

/-! ### Claims C1, C2, C3: the three constraint kinds

The source lowercases only the constraint side of each comparison
(`src/app.rs` lines 298, 313, 325); the corpus word's characters are
compared exactly as stored.  The three characterisation theorems below
state the filters with that corrected comparison, and the three
counterexamples exhibit corpus words stored in uppercase for which the
case-insensitive reading of the claims fails. -/

/-- Sample corpus words for the concrete counterexamples/witnesses. -/
def exApple : Word := ['a', 'p', 'p', 'l', 'e']

def exMango : Word := ['m', 'a', 'n', 'g', 'o']

def exANGLE : Word := ['A', 'N', 'G', 'L', 'E']

/-- C1 (amended): every word of the filtered result has, at each filled
position slot, exactly the lowercase form of the slot's stored letter
(the filter is case-insensitive in the case the user typed, but the
corpus word's character is compared as stored); conversely, when the
inclusion and exclusion constraints are empty, every base-set word
matching the lowercase form of every filled slot is retained. -/
theorem position_filter_characterization (a : App) :
    (∀ w ∈ a.update_filtered_words, ∀ (i : Fin 5) (ch : Char),
        (a.position_content i).text.head? = some ch → w.get? i.val = some ch.toLower)
    ∧ (a.including_content.text = [] → a.excluding_content.text = [] →
        ∀ w ∈ a.base_words,
          (∀ (i : Fin 5) (ch : Char),
            (a.position_content i).text.head? = some ch → w.get? i.val = some ch.toLower) →
          w ∈ a.update_filtered_words) := by
  constructor
  · exact fun w hw i ch hch => posPred_of_mem_filtered a w hw i ch hch
  · intro hinc hexc w hw hmatch
    rw [mem_update_filtered_words]
    refine ⟨hw, posPred_of_slots a w hmatch, ?_, ?_⟩
    · rw [hexc]; rfl
    · rw [hinc]; rfl

/-- App state reached by typing the letter `a` into position slot 0 with
the single (uppercase-stored) corpus word `ANGLE`. -/
def c1App : App :=
  (App.init [exANGLE] [] []).update (.positionEditAction 0 (.edit (.insert 'a')))

/-- C1 counterexample: slot 0 stores the letter `A`, the base-set word
`ANGLE` has exactly that character at index 0 (so it matches the slot
letter case-insensitively), yet the filtered result is empty: the
filter compares the corpus word's character as stored against the
lowercased slot letter, so it is not case-insensitive with respect to
the case the corpus word is stored in. -/
theorem position_filter_case_counterexample :
    (c1App.position_content 0).text.head? = some 'A'
    ∧ exANGLE ∈ c1App.base_words
    ∧ exANGLE.get? 0 = some 'A'
    ∧ c1App.update_filtered_words = [] := by decide

/-- App state reached by typing `a` into position slot 0 with a
lowercase-stored corpus. -/
def c1WitnessApp : App :=
  (App.init [exApple, exMango] [] []).update (.positionEditAction 0 (.edit (.insert 'a')))

theorem position_filter_characterization_witness :
    exApple.get? 0 = some ('A'.toLower) ∧ exApple ∈ c1WitnessApp.update_filtered_words := by
  constructor
  · exact (position_filter_characterization c1WitnessApp).1 exApple (by decide) 0 'A' (by decide)
  · refine (position_filter_characterization c1WitnessApp).2 (by decide) (by decide) exApple
      (by decide) ?_
    intro i ch h
    rcases i with ⟨iv, hv⟩
    interval_cases iv
    · have h0 : (c1WitnessApp.position_content ⟨0, by omega⟩).text.head? = some 'A' := by decide
      rw [h0] at h
      simp only [Option.some.injEq] at h
      subst h
      show List.get? exApple 0 = some 'A'.toLower
      decide
    · have h1 : (c1WitnessApp.position_content ⟨1, by omega⟩).text.head? = none := by decide
      rw [h1] at h
      simp at h
    · have h2 : (c1WitnessApp.position_content ⟨2, by omega⟩).text.head? = none := by decide
      rw [h2] at h
      simp at h
    · have h3 : (c1WitnessApp.position_content ⟨3, by omega⟩).text.head? = none := by decide
      rw [h3] at h
      simp at h
    · have h4 : (c1WitnessApp.position_content ⟨4, by omega⟩).text.head? = none := by decide
      rw [h4] at h
      simp at h

/-- C2 (amended): no word of the filtered result contains the lowercase
form of any letter of the exclusion text (case-insensitive in the case
the user typed; the corpus word's characters are tested as stored);
conversely, with the other constraints empty, every base-set word free
of those lowercase characters is retained. -/
theorem exclusion_filter_characterization (a : App) :
    (∀ w ∈ a.update_filtered_words, ∀ c ∈ a.excluding_content.text,
        w.contains c.toLower = false)
    ∧ ((∀ i : Fin 5, (a.position_content i).text = []) → a.including_content.text = [] →
        ∀ w ∈ a.base_words,
          (∀ c ∈ a.excluding_content.text, w.contains c.toLower = false) →
          w ∈ a.update_filtered_words) := by
  constructor
  · intro w hw c hc
    have hall := ((mem_update_filtered_words a w).mp hw).2.2.1
    rw [List.all_eq_true] at hall
    have := hall c.toLower (List.mem_map_of_mem _ hc)
    simpa using this
  · intro hpos hinc w hw hexc
    rw [mem_update_filtered_words]
    refine ⟨hw, posPred_of_slots a w (fun i ch hch => by rw [hpos i] at hch; simp at hch),
      ?_, ?_⟩
    · rw [List.all_eq_true]
      intro x hx
      rcases List.mem_map.mp hx with ⟨c, hc, rfl⟩
      simpa using hexc c hc
    · rw [hinc]; rfl

/-- App state reached by typing `l` into the exclusion box with the
single (uppercase-stored) corpus word `ANGLE`. -/
def c2App : App :=
  (App.init [exANGLE] [] []).update (.excludingEditAction (.edit (.insert 'l')))

/-- C2 counterexample: the exclusion text stores the letter `L`, the
corpus word `ANGLE` contains exactly that character (so it contains the
excluded letter case-insensitively), yet the word survives the filter:
the exclusion test looks only for the lowercased letter, so a word
stored in uppercase is never excluded. -/
theorem exclusion_filter_case_counterexample :
    c2App.excluding_content.text = ['L']
    ∧ 'L' ∈ exANGLE
    ∧ c2App.update_filtered_words = [exANGLE] := by decide

/-- App state reached by typing `p` into the exclusion box with a
lowercase-stored corpus. -/
def c2WitnessApp : App :=
  (App.init [exApple, exMango] [] []).update (.excludingEditAction (.edit (.insert 'p')))

theorem exclusion_filter_characterization_witness :
    exMango.contains ('P'.toLower) = false ∧ exMango ∈ c2WitnessApp.update_filtered_words := by
  constructor
  · exact (exclusion_filter_characterization c2WitnessApp).1 exMango (by decide) 'P' (by decide)
  · refine (exclusion_filter_characterization c2WitnessApp).2 ?_ (by decide) exMango
      (by decide) ?_
    · intro i
      fin_cases i <;> decide
    · intro c hc
      have ht : c2WitnessApp.excluding_content.text = ['P'] := by decide
      rw [ht] at hc
      have : c = 'P' := by simpa using hc
      subst this
      decide

/-- C3 (amended): the inclusion filter requires, for each character `c`
of the lowercased inclusion text, at least as many exact occurrences of
`c` in the word as `c` has in the lowercased inclusion text (so typing
`LL` requires the character `l` twice; the count is case-insensitive in
the case the user typed but counts the corpus word's characters as
stored); conversely, with the other constraints empty, every base-set
word meeting all those counts is retained. -/
theorem inclusion_filter_characterization (a : App) :
    (∀ w ∈ a.update_filtered_words, ∀ c ∈ a.including_content.text.map Char.toLower,
        (a.including_content.text.map Char.toLower).count c ≤ w.count c)
    ∧ ((∀ i : Fin 5, (a.position_content i).text = []) → a.excluding_content.text = [] →
        ∀ w ∈ a.base_words,
          (∀ c ∈ a.including_content.text.map Char.toLower,
            (a.including_content.text.map Char.toLower).count c ≤ w.count c) →
          w ∈ a.update_filtered_words) := by
  constructor
  · intro w hw c hc
    have hall := ((mem_update_filtered_words a w).mp hw).2.2.2
    rw [List.all_eq_true] at hall
    have hmem : (c, (a.including_content.text.map Char.toLower).count c)
        ∈ charFrequency (a.including_content.text.map Char.toLower) :=
      List.mem_map_of_mem _ (List.mem_dedup.mpr hc)
    simpa using hall _ hmem
  · intro hpos hexc w hw hincl
    rw [mem_update_filtered_words]
    refine ⟨hw, posPred_of_slots a w (fun i ch hch => by rw [hpos i] at hch; simp at hch),
      ?_, ?_⟩
    · rw [hexc]; rfl
    · rw [List.all_eq_true]
      intro p hp
      simp only [charFrequency] at hp
      rcases List.mem_map.mp hp with ⟨c, hc, rfl⟩
      simpa using hincl c (List.mem_dedup.mp hc)

/-- App state reached by typing `l` into the inclusion box with the
single (uppercase-stored) corpus word `ANGLE`. -/
def c3App : App :=
  (App.init [exANGLE] [] []).update (.includingEditAction (.edit (.insert 'l')))

/-- C3 counterexample: the inclusion text stores the letter `L`, the
corpus word `ANGLE` contains the letter `l` once case-insensitively,
yet the word is filtered out: the inclusion count looks only for the
lowercased character, and `ANGLE` as stored contains zero of those. -/
theorem inclusion_filter_case_counterexample :
    c3App.including_content.text = ['L']
    ∧ (exANGLE.map Char.toLower).count 'l' = 1
    ∧ c3App.update_filtered_words = [] := by decide

/-- App state reached by typing `p` twice into the inclusion box with a
lowercase-stored corpus. -/
def c3WitnessApp : App :=
  ((App.init [exApple, exMango] [] []).update
      (.includingEditAction (.edit (.insert 'p')))).update
    (.includingEditAction (.edit (.insert 'p')))

theorem inclusion_filter_characterization_witness :
    (c3WitnessApp.including_content.text.map Char.toLower).count 'p' ≤ exApple.count 'p'
    ∧ exApple ∈ c3WitnessApp.update_filtered_words := by
  constructor
  · exact (inclusion_filter_characterization c3WitnessApp).1 exApple (by decide) 'p' (by decide)
  · refine (inclusion_filter_characterization c3WitnessApp).2 ?_ (by decide) exApple
      (by decide) ?_
    · intro i
      fin_cases i <;> decide
    · intro c hc
      have ht : c3WitnessApp.including_content.text.map Char.toLower = ['p', 'p'] := by decide
      rw [ht] at hc ⊢
      have : c = 'p' := by simpa using hc
      subst this
      decide

/-- App state reached by typing `p` then `l` into the inclusion box. -/
def c5App : App :=
  ((App.init [exApple, exMango] [] []).update
      (.includingEditAction (.edit (.insert 'p')))).update
    (.includingEditAction (.edit (.insert 'l')))

theorem update_filtered_order_irrelevant_witness :
    [('l', 1), ('p', 1)].Perm
        (charFrequency (c5App.including_content.text.map Char.toLower))
    ∧ c5App.update_filtered_with [('l', 1), ('p', 1)] = c5App.update_filtered_words := by
  have hfreq : charFrequency (c5App.including_content.text.map Char.toLower)
      = [('p', 1), ('l', 1)] := by decide
  have hp : [('l', 1), ('p', 1)].Perm
      (charFrequency (c5App.including_content.text.map Char.toLower)) := by
    rw [hfreq]
    exact List.Perm.swap ('p', 1) ('l', 1) []
  exact ⟨hp, update_filtered_order_irrelevant c5App _ hp⟩

/-! ### Claim C6: corpus loading validation -/

theorem extractWordsFrom_ok (lines : List (List Char)) :
    ∀ i, (∀ w ∈ lines, w.length = 5) → extractWordsFrom i lines = .ok lines := by
  induction lines with
  | nil => intro i _; rfl
  | cons w rest ih =>
      intro i h
      have hw : w.length = 5 := h w (List.mem_cons_self w rest)
      simp only [extractWordsFrom]
      rw [if_neg (by omega), ih (i + 1) (fun v hv => h v (List.mem_cons_of_mem _ hv))]

theorem extractWordsFrom_error (w : List Char) :
    ∀ (lines : List (List Char)) (i : Nat), w ∈ lines → w.length ≠ 5 →
      ∃ j v, lines.get? j = some v ∧ v.length ≠ 5
        ∧ extractWordsFrom i lines = .error (i + j + 1, v) := by
  intro lines
  induction lines with
  | nil => intro i h _; cases h
  | cons u rest ih =>
      intro i hmem hw
      by_cases hu : u.length = 5
      · have hwr : w ∈ rest := by
          rcases List.mem_cons.mp hmem with rfl | hr
          · exact absurd hu hw
          · exact hr
        rcases ih (i + 1) hwr hw with ⟨j, v, hj, hv5, herr⟩
        refine ⟨j + 1, v, by simpa using hj, hv5, ?_⟩
        simp only [extractWordsFrom]
        rw [if_neg (by omega), herr]
        have harith : i + 1 + j + 1 = i + (j + 1) + 1 := by omega
        rw [harith]
      · refine ⟨0, u, rfl, hu, ?_⟩
        simp only [extractWordsFrom]
        rw [if_pos hu]

/-- C6: loading validates that every line of each input file has length
exactly 5.  If every entry does, `App::new` succeeds and produces the
words in file order (both for the full list and the common list); any
entry of length other than 5 makes extraction of its file fail with an
error carrying the 1-based line number and the offending text. -/
theorem corpus_loading_validates (allLines commonLines : List (List Char)) :
    ((∀ w ∈ allLines, w.length = 5) → (∀ w ∈ commonLines, w.length = 5) →
        App.new allLines commonLines = .ok (App.init allLines commonLines commonLines))
    ∧ (∀ lines : List (List Char), ∀ w ∈ lines, w.length ≠ 5 →
        ∃ i v, lines.get? i = some v ∧ v.length ≠ 5
          ∧ extractWords lines = .error (i + 1, v)) := by
  constructor
  · intro h1 h2
    unfold App.new extractWords
    rw [extractWordsFrom_ok allLines 0 h1, extractWordsFrom_ok commonLines 0 h2]
  · intro lines w hw h5
    rcases extractWordsFrom_error w lines 0 hw h5 with ⟨j, v, hj, hv, herr⟩
    refine ⟨j, v, hj, hv, ?_⟩
    rw [extractWords, herr]
    norm_num

theorem corpus_loading_validates_witness :
    App.new [exApple] [] = .ok (App.init [exApple] [] [])
    ∧ ∃ i v, [exApple, ['x']].get? i = some v ∧ v.length ≠ 5
        ∧ extractWords [exApple, ['x']] = .error (i + 1, v) := by
  constructor
  · exact (corpus_loading_validates [exApple] []).1 (by decide) (by decide)
  · exact (corpus_loading_validates [exApple] []).2 [exApple, ['x']] ['x'] (by decide) (by decide)

/-! ### Claim C10: out-of-range position edits are complete no-ops -/

/-- C10: a position edit event whose slot index is at least 5 leaves the
entire application state unchanged — no field is touched and
`filtered_words` is not recomputed (the source returns before the
`update_filtered_words` call). -/
theorem position_edit_out_of_range_no_op (a : App) (idx : Nat) (action : Action)
    (h : 5 ≤ idx) : a.update (.positionEditAction idx action) = a := by
  simp only [App.update]
  rw [dif_neg (by omega)]

theorem position_edit_out_of_range_no_op_witness :
    5 ≤ 5 ∧ (App.init [exApple] [] []).update (.positionEditAction 5 (.edit .enter))
        = App.init [exApple] [] [] :=
  ⟨by omega, position_edit_out_of_range_no_op _ 5 _ (by omega)⟩

/-! ### Claim C9: toggling common-only twice restores the result -/

theorem update_filtered_words_congr (a b : App)
    (h1 : a.words = b.words) (h2 : a.sorted_common_words = b.sorted_common_words)
    (h3 : a.position_content = b.position_content)
    (h4 : a.including_content = b.including_content)
    (h5 : a.excluding_content = b.excluding_content)
    (h6 : a.only_show_common = b.only_show_common) :
    a.update_filtered_words = b.update_filtered_words := by
  unfold App.update_filtered_words App.update_filtered_with App.base_words positionSlots
  rw [h1, h2, h3, h4, h5, h6]

theorem update_filtered_words_no_constraints (a : App)
    (hp : ∀ i, (a.position_content i).text = [])
    (hi : a.including_content.text = [])
    (he : a.excluding_content.text = [])
    (hf : a.only_show_common = false) :
    a.update_filtered_words = a.words := by
  unfold App.update_filtered_words App.update_filtered_with App.base_words positionSlots lowerHead
  rw [hp 0, hp 1, hp 2, hp 3, hp 4, hi, he, hf]
  rfl

/-- C9: starting from a state whose `filtered_words` agrees with the
recomputation (true of every reachable state), toggling `common_only`
on and then off again, with no other constraint change in between,
yields a filtered result identical to the one before the two toggles;
and when no constraint is active the result is exactly the original
`words` list in file order. -/
theorem toggle_twice_restores (a : App)
    (hsync : a.filtered_words = a.update_filtered_words) :
    ((a.update .toggleCommonWords).update .toggleCommonWords).filtered_words
        = a.filtered_words
    ∧ ((∀ i, (a.position_content i).text = []) → a.including_content.text = [] →
        a.excluding_content.text = [] → a.only_show_common = false →
        ((a.update .toggleCommonWords).update .toggleCommonWords).filtered_words
          = a.words) := by
  have hmain : ((a.update .toggleCommonWords).update .toggleCommonWords).filtered_words
      = a.update_filtered_words := by
    simp only [App.update, App.recompute]
    apply update_filtered_words_congr <;> simp [Bool.not_not]
  refine ⟨hmain.trans hsync.symm, fun hp hi he hf => ?_⟩
  exact hmain.trans (update_filtered_words_no_constraints a hp hi he hf)

theorem toggle_twice_restores_witness :
    (App.init [exApple] [exMango] [exMango]).filtered_words
        = (App.init [exApple] [exMango] [exMango]).update_filtered_words
    ∧ (((App.init [exApple] [exMango] [exMango]).update .toggleCommonWords).update
          .toggleCommonWords).filtered_words
        = (App.init [exApple] [exMango] [exMango]).filtered_words := by
  have hs : (App.init [exApple] [exMango] [exMango]).filtered_words
      = (App.init [exApple] [exMango] [exMango]).update_filtered_words := by decide
  exact ⟨hs, (toggle_twice_restores _ hs).1⟩

/-! ### Buffer-level lemmas for the edit operations -/

theorem insertAt_count (t : List Char) (p : Nat) (s : List Char) (c : Char) :
    (insertAt t p s).count c = t.count c + s.count c := by
  unfold insertAt
  rw [List.count_append, List.count_append]
  conv_rhs => rw [← List.take_append_drop p t, List.count_append]
  omega

theorem insertAt_filter_length (t : List Char) (p : Nat) (s : List Char) (q : Char → Bool) :
    ((insertAt t p s).filter q).length = (t.filter q).length + (s.filter q).length := by
  unfold insertAt
  rw [List.filter_append, List.filter_append, List.length_append, List.length_append]
  conv_rhs => rw [← List.take_append_drop p t, List.filter_append, List.length_append]
  omega

theorem remove_take_drop_sublist {α : Type} (t : List α) (i j : Nat) (h : i ≤ j) :
    (t.take i ++ t.drop j).Sublist t := by
  conv_rhs => rw [← List.take_append_drop j t]
  have htake : t.take i = (t.take j).take i := by rw [List.take_take, min_eq_left h]
  rw [htake]
  exact List.Sublist.append (List.take_sublist _ _) (List.Sublist.refl _)

theorem perform_insert_text (ct : Content) (c : Char) :
    (ct.perform (.edit (.insert c))).text
      = insertAt ct.text (min ct.cursor ct.text.length) [c] := rfl

theorem perform_paste_text (ct : Content) (s : List Char) :
    (ct.perform (.edit (.paste s))).text
      = insertAt ct.text (min ct.cursor ct.text.length) s := rfl

theorem perform_enter_text (ct : Content) :
    (ct.perform (.edit .enter)).text
      = insertAt ct.text (min ct.cursor ct.text.length) ['\n'] := rfl

theorem perform_backspace_sublist (ct : Content) :
    (ct.perform (.edit .backspace)).text.Sublist ct.text :=
  remove_take_drop_sublist ct.text _ _ (by omega)

theorem perform_delete_sublist (ct : Content) :
    (ct.perform (.edit .delete)).text.Sublist ct.text :=
  remove_take_drop_sublist ct.text _ _ (by omega)

theorem perform_move_text (ct : Content) (n : Nat) :
    (ct.perform (.move n)).text = ct.text := rfl

/-! ### Field-preservation lemmas for `App.update` -/

theorem recompute_excluding (a : App) :
    a.recompute.excluding_content = a.excluding_content := rfl

theorem recompute_including (a : App) :
    a.recompute.including_content = a.including_content := rfl

theorem positionUpdated_excluding (a : App) (idx : Fin 5) (action : Action) :
    (a.positionUpdated idx action).excluding_content = a.excluding_content := by
  unfold App.positionUpdated
  rcases action with e | n
  · cases e with
    | insert c => dsimp only; split <;> rfl
    | paste s => rfl
    | enter => rfl
    | backspace => rfl
    | delete => rfl
  · rfl

theorem positionUpdated_including (a : App) (idx : Fin 5) (action : Action) :
    (a.positionUpdated idx action).including_content = a.including_content := by
  unfold App.positionUpdated
  rcases action with e | n
  · cases e with
    | insert c => dsimp only; split <;> rfl
    | paste s => rfl
    | enter => rfl
    | backspace => rfl
    | delete => rfl
  · rfl

theorem includingUpdated_excluding (a : App) (action : Action) :
    (a.includingUpdated action).excluding_content = a.excluding_content := by
  unfold App.includingUpdated
  rcases action with e | n
  · cases e with
    | insert c => dsimp only; split <;> rfl
    | paste s => rfl
    | enter => rfl
    | backspace => rfl
    | delete => rfl
  · rfl

theorem update_position_excluding (a : App) (idx : Nat) (action : Action) :
    (a.update (.positionEditAction idx action)).excluding_content = a.excluding_content := by
  simp only [App.update]
  split
  · rw [recompute_excluding, positionUpdated_excluding]
  · rfl

theorem update_including_excluding (a : App) (action : Action) :
    (a.update (.includingEditAction action)).excluding_content = a.excluding_content := by
  simp only [App.update]
  rw [recompute_excluding, includingUpdated_excluding]

theorem update_toggle_excluding (a : App) :
    (a.update .toggleCommonWords).excluding_content = a.excluding_content := rfl

/-! ### Claim C7: the exclusion text stores no duplicate letter -/

theorem step_excluding_dup_free (a : App) (m : Message)
    (hm : m.isExcludingPaste = false)
    (h : ∀ c : Char, c.isAlpha → a.excluding_content.text.count c ≤ 1)
    (c : Char) (hc : c.isAlpha) :
    (a.update m).excluding_content.text.count c ≤ 1 := by
  cases m with
  | positionEditAction idx action =>
      rw [update_position_excluding]
      exact h c hc
  | includingEditAction action =>
      rw [update_including_excluding]
      exact h c hc
  | toggleCommonWords =>
      rw [update_toggle_excluding]
      exact h c hc
  | excludingEditAction action =>
      rcases action with e | n
      case move =>
        simp only [App.update]
        rw [recompute_excluding]
        exact h c hc
      cases e with
      | paste s => simp [Message.isExcludingPaste] at hm
      | insert c' =>
          simp only [App.update]
          rcases hal : c'.isAlpha with _ | _
          · rw [if_neg (by simp [hal])]
            exact h c hc
          · rw [if_pos (by simp [hal])]
            rw [recompute_excluding]
            rcases hcont : a.excluding_content.text.contains c'.toUpper with _ | _
            · rw [if_neg (by simp [hcont])]
              rw [perform_insert_text, insertAt_count]
              have hcnt0 : a.excluding_content.text.count c'.toUpper = 0 := by
                rw [List.count_eq_zero]
                intro hmem
                have hcontra : a.excluding_content.text.contains c'.toUpper = true :=
                  List.elem_iff.mpr hmem
                rw [hcontra] at hcont
                cases hcont
              by_cases hcc : c = c'.toUpper
              · subst hcc
                rw [hcnt0]
                simp
              · have : List.count c [c'.toUpper] = 0 := by
                  rw [List.count_eq_zero]
                  simp only [List.mem_singleton]
                  exact hcc
                rw [this]
                simpa using h c hc
            · rw [if_pos (by simp [hcont])]
              exact h c hc
      | enter =>
          simp only [App.update]
          rw [recompute_excluding, perform_enter_text, insertAt_count]
          have hzero : List.count c ['\n'] = 0 := by
            rw [List.count_eq_zero]
            simp only [List.mem_singleton]
            intro hcn
            subst hcn
            exact absurd hc (by decide)
          rw [hzero]
          simpa using h c hc
      | backspace =>
          simp only [App.update]
          rw [recompute_excluding]
          exact le_trans (List.Sublist.count_le (perform_backspace_sublist _) c) (h c hc)
      | delete =>
          simp only [App.update]
          rw [recompute_excluding]
          exact le_trans (List.Sublist.count_le (perform_delete_sublist _) c) (h c hc)

theorem run_excluding_dup_free (ms : List Message) :
    ∀ a : App, (∀ m ∈ ms, m.isExcludingPaste = false) →
      (∀ c : Char, c.isAlpha → a.excluding_content.text.count c ≤ 1) →
      ∀ c : Char, c.isAlpha → (a.run ms).excluding_content.text.count c ≤ 1 := by
  induction ms with
  | nil => intro a _ h; exact h
  | cons m ms ih =>
      intro a hms h
      exact ih (a.update m) (fun m' hm' => hms m' (List.mem_cons_of_mem _ hm'))
        (fun c hc => step_excluding_dup_free a m (hms m (List.mem_cons_self _ _)) h c hc)

/-- C7 (amended): for every sequence of edit events that contains no
paste edit on the exclusion box, each letter occurs at most once in the
exclusion text of the state reached from the initial one; moreover an
insert of a letter whose stored (uppercase) form is already present
leaves the exclusion text unchanged.  (A paste edit can introduce
duplicate letters, so the restriction is necessary.) -/
theorem exclusion_text_no_duplicates (ws scs cw : List Word) (ms : List Message)
    (hms : ∀ m ∈ ms, m.isExcludingPaste = false) :
    (∀ c : Char, c.isAlpha →
        ((App.init ws scs cw).run ms).excluding_content.text.count c ≤ 1)
    ∧ (∀ (a : App) (c : Char), a.excluding_content.text.contains c.toUpper = true →
        (a.update (.excludingEditAction (.edit (.insert c)))).excluding_content.text
          = a.excluding_content.text) := by
  constructor
  · exact run_excluding_dup_free ms (App.init ws scs cw) hms
      (fun c _ => by simp [App.init, Content.new])
  · intro a c hcont
    simp only [App.update]
    rcases hal : c.isAlpha with _ | _
    · rw [if_neg (by simp [hal])]
    · rw [if_pos (by simp [hal]), if_pos hcont, recompute_excluding]

/-- C7 counterexample: a single paste edit on the exclusion box stores
the letter `P` twice, so "after any sequence of edit events, each letter
occurs at most once in the exclusion text" is false as stated. -/
theorem exclusion_paste_duplicates :
    (((App.init [] [] []).update
        (.excludingEditAction (.edit (.paste ['P', 'P'])))).excluding_content.text.count 'P')
      = 2 := by decide

theorem exclusion_text_no_duplicates_witness :
    (∀ m ∈ [Message.excludingEditAction (.edit (.insert 'p')),
            Message.excludingEditAction (.edit (.insert 'P'))],
        m.isExcludingPaste = false)
    ∧ (((App.init [exApple] [] []).run
          [Message.excludingEditAction (.edit (.insert 'p')),
           Message.excludingEditAction (.edit (.insert 'P'))]).excluding_content.text.count 'P'
        ≤ 1) := by
  refine ⟨by decide, ?_⟩
  exact (exclusion_text_no_duplicates [exApple] [] [] _ (by decide)).1 'P' (by decide)

/-! ### Claim C8: the inclusion text holds at most five letters -/

theorem update_position_including (a : App) (idx : Nat) (action : Action) :
    (a.update (.positionEditAction idx action)).including_content = a.including_content := by
  simp only [App.update]
  split
  · rw [recompute_including, positionUpdated_including]
  · rfl

theorem update_excluding_including (a : App) (action : Action) :
    (a.update (.excludingEditAction action)).including_content = a.including_content := by
  simp only [App.update]
  rcases action with e | n
  · cases e with
    | insert c =>
        dsimp only
        rcases hal : c.isAlpha with _ | _
        · rw [if_neg (by simp [hal])]
        · rw [if_pos (by simp [hal]), recompute_including]
          split <;> rfl
    | paste s => rfl
    | enter => rfl
    | backspace => rfl
    | delete => rfl
  · rfl

theorem update_toggle_including (a : App) :
    (a.update .toggleCommonWords).including_content = a.including_content := rfl

theorem step_including_alpha_len (a : App) (m : Message)
    (hm : m.isIncludingPaste = false)
    (h : (a.including_content.text.filter Char.isAlpha).length ≤ 5) :
    ((a.update m).including_content.text.filter Char.isAlpha).length ≤ 5 := by
  cases m with
  | positionEditAction idx action =>
      rw [update_position_including]
      exact h
  | excludingEditAction action =>
      rw [update_excluding_including]
      exact h
  | toggleCommonWords =>
      rw [update_toggle_including]
      exact h
  | includingEditAction action =>
      simp only [App.update]
      rw [recompute_including]
      rcases action with e | n
      case move =>
        unfold App.includingUpdated
        exact h
      cases e with
      | paste s => simp [Message.isIncludingPaste] at hm
      | insert c =>
          unfold App.includingUpdated
          dsimp only
          split
          case isTrue hg =>
              rw [perform_insert_text, insertAt_filter_length]
              have hlen : (a.including_content.text.filter Char.isAlpha).length
                  ≤ a.including_content.text.length := List.length_filter_le _ _
              have hone : (List.filter Char.isAlpha [c.toUpper]).length ≤ 1 := by
                cases hq : Char.isAlpha c.toUpper <;> simp [List.filter, hq]
              omega
          case isFalse hg => exact h
      | enter =>
          unfold App.includingUpdated
          rw [perform_enter_text, insertAt_filter_length]
          have hzero : (List.filter Char.isAlpha ['\n']).length = 0 := by decide
          omega
      | backspace =>
          unfold App.includingUpdated
          exact le_trans (List.Sublist.length_le
            ((perform_backspace_sublist _).filter Char.isAlpha)) h
      | delete =>
          unfold App.includingUpdated
          exact le_trans (List.Sublist.length_le
            ((perform_delete_sublist _).filter Char.isAlpha)) h

theorem run_including_alpha_len (ms : List Message) :
    ∀ a : App, (∀ m ∈ ms, m.isIncludingPaste = false) →
      (a.including_content.text.filter Char.isAlpha).length ≤ 5 →
      ((a.run ms).including_content.text.filter Char.isAlpha).length ≤ 5 := by
  induction ms with
  | nil => intro a _ h; exact h
  | cons m ms ih =>
      intro a hms h
      exact ih (a.update m) (fun m' hm' => hms m' (List.mem_cons_of_mem _ hm'))
        (step_including_alpha_len a m (hms m (List.mem_cons_self _ _)) h)

/-- C8 (amended): for every sequence of edit events that contains no
paste edit on the inclusion box, the inclusion text of the state
reached from the initial one holds at most 5 letters; moreover an
insert whose character is not alphabetic, or that arrives when the text
already has 5 or more characters, leaves the inclusion text unchanged.
(A paste edit bypasses both the alphabetic check and the cap, so the
restriction is necessary.) -/
theorem inclusion_text_capped (ws scs cw : List Word) (ms : List Message)
    (hms : ∀ m ∈ ms, m.isIncludingPaste = false) :
    ((((App.init ws scs cw).run ms).including_content.text.filter Char.isAlpha).length ≤ 5)
    ∧ (∀ (a : App) (c : Char),
        ¬(c.isAlpha = true ∧ a.including_content.text.length < 5) →
        (a.update (.includingEditAction (.edit (.insert c)))).including_content.text
          = a.including_content.text) := by
  constructor
  · exact run_including_alpha_len ms (App.init ws scs cw) hms
      (by simp [App.init, Content.new])
  · intro a c hg
    simp only [App.update]
    rw [recompute_including]
    unfold App.includingUpdated
    dsimp only
    rw [if_neg hg]

/-- C8 counterexample: a single paste edit on the inclusion box stores
six letters at once, so "after any sequence of edit events, the
inclusion text holds at most 5 letters" is false as stated. -/
theorem inclusion_paste_exceeds_cap :
    ((((App.init [] [] []).update
        (.includingEditAction
          (.edit (.paste ['A', 'B', 'C', 'D', 'E', 'F'])))).including_content.text.filter
            Char.isAlpha).length) = 6 := by decide

/-- Five letters typed one by one fill the box; the sixth insert is
rejected, as is a digit. -/
def c8Messages : List Message :=
  [.includingEditAction (.edit (.insert 'a')),
   .includingEditAction (.edit (.insert 'b')),
   .includingEditAction (.edit (.insert 'c')),
   .includingEditAction (.edit (.insert 'd')),
   .includingEditAction (.edit (.insert 'e'))]

theorem inclusion_text_capped_witness :
    (∀ m ∈ c8Messages, m.isIncludingPaste = false)
    ∧ ((((App.init [] [] []).run c8Messages).including_content.text.filter
          Char.isAlpha).length ≤ 5)
    ∧ (((App.init [] [] []).run c8Messages).update
          (.includingEditAction (.edit (.insert 'f')))).including_content.text
        = ((App.init [] [] []).run c8Messages).including_content.text := by
  refine ⟨by decide, ?_, ?_⟩
  · exact (inclusion_text_capped [] [] [] c8Messages (by decide)).1
  · exact (inclusion_text_capped [] [] [] c8Messages (by decide)).2
      ((App.init [] [] []).run c8Messages) 'f' (by decide)

end WordleFinder
